import Mathlib

/-!
Verification of the rotation-kernel specification of `wave_geometry`
(files `src/include/wave/geometry/src/util/math/math.hpp` and
`src/include/wave/geometry/src/geometry/leaf/RelativeRotation.hpp`)
against a shallow embedding of the code over the real numbers.

The C++ code is templated over a floating-point scalar; the embedding uses
`ℝ` for the scalar and keeps Eigen's machine epsilon
(`Eigen::NumTraits<Scalar>::epsilon()`) as an explicit parameter `eps`,
so every branch condition of the source is preserved verbatim.
Floating-point division by zero (which yields NaN/Inf in the source) has no
real-number counterpart; the one kernel that can divide by zero on its
documented domain, the single-argument `jacobianOfRotationLogMap`, is
therefore embedded with an `Option` result that is `none` exactly when one
of its denominators vanishes.
-/

namespace wave

noncomputable section

/-- A 3-vector (the embedding of `Eigen::Matrix<Scalar, 3, 1>`). -/
@[ext]
structure V3 where
  x : ℝ
  y : ℝ
  z : ℝ

/-- Eigen `v.squaredNorm()`: the sum of the squares of the coefficients. -/
def V3.squaredNorm (v : V3) : ℝ := v.x * v.x + v.y * v.y + v.z * v.z

/-- Eigen `v.norm()`: the Euclidean norm. -/
def V3.norm (v : V3) : ℝ := Real.sqrt v.squaredNorm

/-- Scalar multiple of a 3-vector (Eigen `a * v`). -/
def V3.smul (a : ℝ) (v : V3) : V3 := ⟨a * v.x, a * v.y, a * v.z⟩

/-- Componentwise negation (Eigen `-v`). -/
def V3.neg (v : V3) : V3 := ⟨-v.x, -v.y, -v.z⟩

/-- The zero 3-vector. -/
def V3.zero : V3 := ⟨0, 0, 0⟩

/-- The coefficients of a 3-vector as a function on `Fin 3`. -/
def V3.nth (v : V3) : Fin 3 → ℝ := ![v.x, v.y, v.z]

/-- The 3-vector as a 3×1 column matrix (Eigen's own view of a vector). -/
def V3.colMatrix (v : V3) : Matrix (Fin 3) (Fin 1) ℝ :=
  Matrix.of fun i _ => v.nth i

/-- A quaternion, stored as in Eigen: coefficient order `x, y, z, w`
(the embedding of `Eigen::Quaternion<Scalar>`). -/
@[ext]
structure Quat where
  x : ℝ
  y : ℝ
  z : ℝ
  w : ℝ

/-- Eigen `q.vec()`: the imaginary (vector) part. -/
def Quat.vec (q : Quat) : V3 := ⟨q.x, q.y, q.z⟩

/-- Componentwise negation of a quaternion (Eigen `-q.coeffs()`). -/
def Quat.neg (q : Quat) : Quat := ⟨-q.x, -q.y, -q.z, -q.w⟩

/-- Squared norm of a quaternion: sum of squares of all four coefficients. -/
def Quat.normSq (q : Quat) : ℝ := q.x * q.x + q.y * q.y + q.z * q.z + q.w * q.w

/-- Norm of a quaternion. -/
def Quat.norm (q : Quat) : ℝ := Real.sqrt q.normSq

/-- `std::copysign x y`: the magnitude of `x` with the sign of `y`.
The reals have no signed zero, so `y = 0` is treated as positive
(the sign of IEEE `+0.0`). -/
def copysign (x y : ℝ) : ℝ := if y < 0 then -|x| else |x|

/-- `std::atan2 y x`, embedded from the C standard definition on the reals
(no signed zeros): the angle of the point `(x, y)` in `(-π, π]`. -/
def atan2 (y x : ℝ) : ℝ :=
  if 0 < x then Real.arctan (y / x)
  else if x < 0 then
    (if 0 ≤ y then Real.arctan (y / x) + Real.pi else Real.arctan (y / x) - Real.pi)
  else if 0 < y then Real.pi / 2
  else if y < 0 then -(Real.pi / 2)
  else 0

/-- Modelled from the spec: `crossMatrix` (the skew/"hat" operator) is used
by the Jacobian kernels in `math.hpp` but its definition is not among the
given sources.  Spec §4.2 and the glossary fix its layout: the
antisymmetric matrix with `M[2][1] = v.x`, `M[0][2] = v.y`, `M[1][0] = v.z`
whose product with a vector equals the cross product. -/
def crossMatrix (v : V3) : Matrix (Fin 3) (Fin 3) ℝ :=
  !![0, -v.z, v.y; v.z, 0, -v.x; -v.y, v.x, 0]

/-- `uncrossMatrix` from `math.hpp` (lines 49–55): the "vee" operator,
reading the three generating coefficients off fixed positions of the
matrix, with no validation of skew-symmetry. -/
def uncrossMatrix (skew : Matrix (Fin 3) (Fin 3) ℝ) : V3 :=
  ⟨skew 2 1, skew 0 2, skew 1 0⟩

/-- `quaternionFromRotationVector` from `math.hpp` (lines 66–93): the
exponential map so(3) → SO(3).  `angle2` is `v.squaredNorm()`, `angle` its
square root; the generic branch is taken when `angle2 * angle2 > eps`,
otherwise the small-angle series is used.  The quaternion coefficients are
written in storage order `x, y, z, w` as `(s*v, c)`. -/
def quaternionFromRotationVector (eps : ℝ) (v : V3) : Quat :=
  if v.squaredNorm * v.squaredNorm > eps then
    ⟨Real.sin (Real.sqrt v.squaredNorm / 2) / Real.sqrt v.squaredNorm * v.x,
     Real.sin (Real.sqrt v.squaredNorm / 2) / Real.sqrt v.squaredNorm * v.y,
     Real.sin (Real.sqrt v.squaredNorm / 2) / Real.sqrt v.squaredNorm * v.z,
     Real.cos (Real.sqrt v.squaredNorm / 2)⟩
  else
    ⟨(0.5 + v.squaredNorm / 48) * v.x,
     (0.5 + v.squaredNorm / 48) * v.y,
     (0.5 + v.squaredNorm / 48) * v.z,
     1 - v.squaredNorm / 8⟩

/-- `rotationVectorFromQuaternion` from `math.hpp` (lines 97–113): the
logarithmic map SO(3) → so(3).  `norm` is `q.vec().norm()`; the generic
branch returns `2 * atan2(norm, |q.w|) * q.vec() / copysign(norm, q.w)`,
and the small branch returns `2 * q.vec()` (the limit as `q.w → 1`). -/
def rotationVectorFromQuaternion (eps : ℝ) (q : Quat) : V3 :=
  if q.vec.norm > eps then
    V3.smul (2 * atan2 q.vec.norm |q.w| / copysign q.vec.norm q.w) q.vec
  else
    V3.smul 2 q.vec

/-- `rotationVectorFromMatrix` from `math.hpp` (lines 117–135): the
logarithmic map of a rotation matrix.  `angle = acos((trace m − 1)/2)`;
the generic branch is taken when `angle * angle > eps`. -/
def rotationVectorFromMatrix (eps : ℝ) (m : Matrix (Fin 3) (Fin 3) ℝ) : V3 :=
  if Real.arccos ((Matrix.trace m - 1) / 2) * Real.arccos ((Matrix.trace m - 1) / 2) >
      eps then
    uncrossMatrix
      ((Real.arccos ((Matrix.trace m - 1) / 2) /
          (2 * Real.sin (Real.arccos ((Matrix.trace m - 1) / 2)))) •
        (m - m.transpose))
  else
    uncrossMatrix ((0.5 : ℝ) • (m - m.transpose))

/-- The single-argument overload of `jacobianOfRotationLogMap` from
`math.hpp` (lines 142–165), taking only the rotation vector.  With
`θ² = v.squaredNorm`, `θ = √θ²`, `A = sin θ / θ`, `B = (1 − cos θ)/θ²`,
it returns `I − 0.5·skew(v) + ((B − 0.5·A)/(1 − cos θ))·skew(v)²` with no
small-angle branch (the source's small-input branch is commented out,
marked "@todo small input").  Its denominators are `θ`, `θ²` and
`1 − cos θ`; all of them vanish together exactly when `1 − cos θ = 0`
(in particular at `θ = 0`, where the source computes `0/0`, a NaN), so the
embedding returns `none` in exactly that case. -/
def jacobianOfRotationLogMapV (v : V3) : Option (Matrix (Fin 3) (Fin 3) ℝ) :=
  if 1 - Real.cos (Real.sqrt v.squaredNorm) = 0 then none
  else
    some
      (1 - (0.5 : ℝ) • crossMatrix v +
        (((1 - Real.cos (Real.sqrt v.squaredNorm)) / v.squaredNorm -
            0.5 * (Real.sin (Real.sqrt v.squaredNorm) / Real.sqrt v.squaredNorm)) /
          (1 - Real.cos (Real.sqrt v.squaredNorm))) •
          (crossMatrix v * crossMatrix v))

/-- The two-argument overload of `jacobianOfRotationLogMap` from `math.hpp`
(lines 172–191), taking the rotation matrix `C` produced by the exp map and
the generating vector `v`.  With `n² = v.squaredNorm`: if `n² > eps` it
returns `((I − C)·skew(v) + v·vᵗ) / n²` (Bloesch eq. 80), else
`I + 0.5·skew(v)`. -/
def jacobianOfRotationLogMapCV (eps : ℝ) (C : Matrix (Fin 3) (Fin 3) ℝ) (v : V3) :
    Matrix (Fin 3) (Fin 3) ℝ :=
  if v.squaredNorm > eps then
    (v.squaredNorm)⁻¹ •
      ((1 - C) * crossMatrix v + v.colMatrix * v.colMatrix.transpose)
  else
    1 + (0.5 : ℝ) • crossMatrix v

/-- The deterministic core of `randomQuaternion` from `math.hpp`
(lines 34–43), as a function of the three underlying uniform samples
`s, u1, u2 ∈ [0, 1]`: with `s1 = √(1−s)`, `s2 = √s`, `t1 = 2π·u1`,
`t2 = 2π·u2`, the constructed quaternion is
`Quaternion{cos t2·s2, sin t1·s1, cos t1·s1, sin t2·s2}` whose constructor
argument order is `(w, x, y, z)`. -/
def randomQuaternionSample (s u1 u2 : ℝ) : Quat :=
  ⟨Real.sin (2 * Real.pi * u1) * Real.sqrt (1 - s),
   Real.cos (2 * Real.pi * u1) * Real.sqrt (1 - s),
   Real.sin (2 * Real.pi * u2) * Real.sqrt s,
   Real.cos (2 * Real.pi * u2) * Real.sqrt s⟩

/-- `RelativeRotation` from `RelativeRotation.hpp`: a leaf value type whose
underlying storage is a 3-vector. -/
@[ext]
structure RelativeRotation where
  value : V3

/-- Modelled from the spec: `RelativeRotation() = default` delegates to the
`LeafStorage` base class, which is not among the given sources; spec §4.4
says default construction yields the "zero-rotation / identity tangent". -/
def RelativeRotation.default : RelativeRotation := ⟨V3.zero⟩

/-- Eigen `axis.normalized()`: the vector divided by its norm. -/
def V3.normalized (v : V3) : V3 := V3.smul v.norm⁻¹ v

/-- `RelativeRotation::setFromAngleAndAxis` (lines 65–70): overwrites the
underlying value with `angle * axis.normalized()` and returns the object. -/
def RelativeRotation.setFromAngleAndAxis (r : RelativeRotation) (angle : ℝ)
    (axis : V3) : RelativeRotation :=
  ⟨V3.smul angle axis.normalized⟩

/-- `RelativeRotation::FromAngleAndAxis` (lines 76–82): default-constructs
a `RelativeRotation` and calls `setFromAngleAndAxis` on it. -/
def RelativeRotation.FromAngleAndAxis (angle : ℝ) (axis : V3) : RelativeRotation :=
  RelativeRotation.default.setFromAngleAndAxis angle axis

end

/-! ## Helper lemmas -/

theorem V3.squaredNorm_nonneg (v : V3) : 0 ≤ v.squaredNorm := by
  have hx := mul_self_nonneg v.x
  have hy := mul_self_nonneg v.y
  have hz := mul_self_nonneg v.z
  unfold V3.squaredNorm
  linarith

theorem V3.norm_nonneg (v : V3) : 0 ≤ v.norm := Real.sqrt_nonneg _

theorem V3.squaredNorm_smul (a : ℝ) (v : V3) :
    (V3.smul a v).squaredNorm = a ^ 2 * v.squaredNorm := by
  unfold V3.smul V3.squaredNorm
  ring

theorem V3.norm_smul (a : ℝ) (v : V3) : (V3.smul a v).norm = |a| * v.norm := by
  unfold V3.norm
  rw [V3.squaredNorm_smul, Real.sqrt_mul (sq_nonneg a), Real.sqrt_sq_eq_abs]

theorem V3.smul_smul (a b : ℝ) (v : V3) :
    V3.smul a (V3.smul b v) = V3.smul (a * b) v := by
  unfold V3.smul
  ext <;> ring

theorem V3.smul_one (v : V3) : V3.smul 1 v = v := by
  unfold V3.smul
  ext <;> ring

theorem V3.squaredNorm_eq_zero_iff (v : V3) : v.squaredNorm = 0 ↔ v = V3.zero := by
  constructor
  · intro h
    have hx := mul_self_nonneg v.x
    have hy := mul_self_nonneg v.y
    have hz := mul_self_nonneg v.z
    have hx0 : v.x * v.x = 0 := by
      unfold V3.squaredNorm at h; linarith
    have hy0 : v.y * v.y = 0 := by
      unfold V3.squaredNorm at h; linarith
    have hz0 : v.z * v.z = 0 := by
      unfold V3.squaredNorm at h; linarith
    have : v.x = 0 := by nlinarith
    have : v.y = 0 := by nlinarith
    have : v.z = 0 := by nlinarith
    unfold V3.zero
    ext <;> assumption
  · intro h
    subst h
    unfold V3.squaredNorm V3.zero
    norm_num

theorem crossMatrix_zero : crossMatrix V3.zero = 0 := by
  unfold crossMatrix V3.zero
  ext i j
  fin_cases i <;> fin_cases j <;>
    simp [Matrix.vecHead, Matrix.vecTail]

/-! ## C9: the vee operator -/

/-- C9: for every 3-vector `w`, `uncrossMatrix (crossMatrix w) = w`, and for
every 3×3 matrix `M`, `uncrossMatrix M` is the vector
`(M[2][1], M[0][2], M[1][0])`, with no validation of skew-symmetry. -/
theorem uncrossMatrix_spec :
    (∀ w : V3, uncrossMatrix (crossMatrix w) = w) ∧
    (∀ M : Matrix (Fin 3) (Fin 3) ℝ, uncrossMatrix M = ⟨M 2 1, M 0 2, M 1 0⟩) := by
  constructor
  · intro w
    unfold uncrossMatrix crossMatrix
    ext <;> simp [Matrix.cons_val_zero, Matrix.cons_val_one]
  · intro M
    rfl

/-! ## C8: default construction -/

/-- C8: a default-constructed `RelativeRotation` holds the zero rotation:
its underlying 3-vector is `(0, 0, 0)`. -/
theorem default_is_zero_rotation :
    RelativeRotation.default.value = V3.mk 0 0 0 := rfl

/-! ## C7: axis-angle construction -/

/-- C7: for a nonzero axis, `setFromAngleAndAxis angle axis` sets the
underlying 3-vector to `angle • (axis / ‖axis‖)`, and the static factory
`FromAngleAndAxis` produces exactly default construction followed by
`setFromAngleAndAxis`. -/
theorem setFromAngleAndAxis_spec (r : RelativeRotation) (angle : ℝ) (axis : V3)
    (h : axis ≠ V3.zero) :
    (r.setFromAngleAndAxis angle axis).value =
      V3.smul angle (V3.smul axis.norm⁻¹ axis) ∧
    RelativeRotation.FromAngleAndAxis angle axis =
      RelativeRotation.default.setFromAngleAndAxis angle axis := by
  exact ⟨rfl, rfl⟩

/-- Witness for C7 at `angle = 2`, `axis = (0, 0, 1)`. -/
theorem setFromAngleAndAxis_spec_witness :
    V3.mk 0 0 1 ≠ V3.zero ∧
    ((RelativeRotation.mk V3.zero).setFromAngleAndAxis 2 (V3.mk 0 0 1)).value =
      V3.smul 2 (V3.smul (V3.norm (V3.mk 0 0 1))⁻¹ (V3.mk 0 0 1)) := by
  have h : V3.mk 0 0 1 ≠ V3.zero := by
    intro hc
    have := congrArg V3.z hc
    simp [V3.zero] at this
  exact ⟨h, (setFromAngleAndAxis_spec (RelativeRotation.mk V3.zero) 2 (V3.mk 0 0 1) h).1⟩

/-! ## C2: branch structure of the exponential map -/

/-- C2: with `θ = ‖v‖`, `quaternionFromRotationVector` uses
`s = sin(θ/2)/θ`, `c = cos(θ/2)` exactly when `θ⁴ > eps` (the code's
comparison `angle2 * angle2 > eps`, squared angle squared), and otherwise
the series `s = 0.5 + θ²/48`, `c = 1 − θ²/8`; the returned quaternion in
`(x, y, z, w)` storage order is `(s·v, c)`. -/
theorem quaternionFromRotationVector_branches (eps : ℝ) (v : V3) :
    (v.norm ^ 4 > eps →
      quaternionFromRotationVector eps v =
        ⟨Real.sin (v.norm / 2) / v.norm * v.x,
         Real.sin (v.norm / 2) / v.norm * v.y,
         Real.sin (v.norm / 2) / v.norm * v.z,
         Real.cos (v.norm / 2)⟩) ∧
    (¬ v.norm ^ 4 > eps →
      quaternionFromRotationVector eps v =
        ⟨(0.5 + v.norm ^ 2 / 48) * v.x,
         (0.5 + v.norm ^ 2 / 48) * v.y,
         (0.5 + v.norm ^ 2 / 48) * v.z,
         1 - v.norm ^ 2 / 8⟩) := by
  have hsq : v.norm ^ 2 = v.squaredNorm := Real.sq_sqrt (V3.squaredNorm_nonneg v)
  have h4 : v.norm ^ 4 = v.squaredNorm * v.squaredNorm := by
    have : v.norm ^ 4 = v.norm ^ 2 * v.norm ^ 2 := by ring
    rw [this, hsq]
  constructor
  · intro h
    rw [h4] at h
    unfold quaternionFromRotationVector
    rw [if_pos h]
    rfl
  · intro h
    rw [h4] at h
    unfold quaternionFromRotationVector
    rw [if_neg h, hsq]

/-- Witness for C2 at `eps = 0`, `v = (1, 0, 0)` (generic branch). -/
theorem quaternionFromRotationVector_branches_witness :
    (V3.mk 1 0 0).norm ^ 4 > (0 : ℝ) ∧
    quaternionFromRotationVector 0 (V3.mk 1 0 0) =
      ⟨Real.sin ((V3.mk 1 0 0).norm / 2) / (V3.mk 1 0 0).norm * 1,
       Real.sin ((V3.mk 1 0 0).norm / 2) / (V3.mk 1 0 0).norm * 0,
       Real.sin ((V3.mk 1 0 0).norm / 2) / (V3.mk 1 0 0).norm * 0,
       Real.cos ((V3.mk 1 0 0).norm / 2)⟩ := by
  have hn : (V3.mk 1 0 0).norm = 1 := by
    unfold V3.norm V3.squaredNorm
    norm_num
  have h : (V3.mk 1 0 0).norm ^ 4 > (0 : ℝ) := by
    rw [hn]
    norm_num
  exact ⟨h, (quaternionFromRotationVector_branches 0 (V3.mk 1 0 0)).1 h⟩

/-! ## C3: branch structure of the two-argument Jacobian -/

/-- C3: the two-argument `jacobianOfRotationLogMap` returns
`((I − C)·skew(v) + v·vᵗ) / n²` when `n² = ‖v‖² > eps`, and
`I + 0.5·skew(v)` otherwise. -/
theorem jacobianOfRotationLogMapCV_branches (eps : ℝ)
    (C : Matrix (Fin 3) (Fin 3) ℝ) (v : V3) :
    (v.squaredNorm > eps →
      jacobianOfRotationLogMapCV eps C v =
        (v.squaredNorm)⁻¹ •
          ((1 - C) * crossMatrix v + Matrix.vecMulVec v.nth v.nth)) ∧
    (¬ v.squaredNorm > eps →
      jacobianOfRotationLogMapCV eps C v = 1 + (0.5 : ℝ) • crossMatrix v) := by
  have houter : v.colMatrix * v.colMatrix.transpose = Matrix.vecMulVec v.nth v.nth := by
    ext i j
    simp [Matrix.mul_apply, V3.colMatrix, Matrix.vecMulVec_apply]
  constructor
  · intro h
    unfold jacobianOfRotationLogMapCV
    rw [if_pos h, houter]
  · intro h
    unfold jacobianOfRotationLogMapCV
    rw [if_neg h]

/-- Witness for C3 at `eps = 0`, `C = I`, `v = (1, 0, 0)` (generic branch). -/
theorem jacobianOfRotationLogMapCV_branches_witness :
    V3.squaredNorm (V3.mk 1 0 0) > (0 : ℝ) ∧
    jacobianOfRotationLogMapCV 0 1 (V3.mk 1 0 0) =
      (V3.squaredNorm (V3.mk 1 0 0))⁻¹ •
        ((1 - 1) * crossMatrix (V3.mk 1 0 0) +
          Matrix.vecMulVec (V3.nth (V3.mk 1 0 0)) (V3.nth (V3.mk 1 0 0))) := by
  have h : V3.squaredNorm (V3.mk 1 0 0) > (0 : ℝ) := by
    unfold V3.squaredNorm
    norm_num
  exact ⟨h, (jacobianOfRotationLogMapCV_branches 0 1 (V3.mk 1 0 0)).1 h⟩

/-! ## C5: branch structure of the matrix log map -/

/-- C5: `rotationVectorFromMatrix` computes `angle = acos((trace C − 1)/2)`
and returns `vee(angle/(2·sin angle) · (C − Cᵗ))` exactly when
`angle² > eps`, else `vee(0.5·(C − Cᵗ))`. -/
theorem rotationVectorFromMatrix_branches (eps : ℝ) (m : Matrix (Fin 3) (Fin 3) ℝ) :
    (Real.arccos ((Matrix.trace m - 1) / 2) ^ 2 > eps →
      rotationVectorFromMatrix eps m =
        uncrossMatrix
          ((Real.arccos ((Matrix.trace m - 1) / 2) /
              (2 * Real.sin (Real.arccos ((Matrix.trace m - 1) / 2)))) •
            (m - m.transpose))) ∧
    (¬ Real.arccos ((Matrix.trace m - 1) / 2) ^ 2 > eps →
      rotationVectorFromMatrix eps m =
        uncrossMatrix ((0.5 : ℝ) • (m - m.transpose))) := by
  constructor
  · intro h
    rw [pow_two] at h
    unfold rotationVectorFromMatrix
    rw [if_pos h]
  · intro h
    rw [pow_two] at h
    unfold rotationVectorFromMatrix
    rw [if_neg h]

/-- Witness for C5 at `eps = 0`, `m = 0` (generic branch:
`angle = arccos(−1/2) > 0`). -/
theorem rotationVectorFromMatrix_branches_witness :
    Real.arccos ((Matrix.trace (0 : Matrix (Fin 3) (Fin 3) ℝ) - 1) / 2) ^ 2 > (0 : ℝ) ∧
    rotationVectorFromMatrix 0 (0 : Matrix (Fin 3) (Fin 3) ℝ) =
      uncrossMatrix
        ((Real.arccos ((Matrix.trace (0 : Matrix (Fin 3) (Fin 3) ℝ) - 1) / 2) /
            (2 * Real.sin (Real.arccos ((Matrix.trace (0 : Matrix (Fin 3) (Fin 3) ℝ) - 1) / 2)))) •
          ((0 : Matrix (Fin 3) (Fin 3) ℝ) - (0 : Matrix (Fin 3) (Fin 3) ℝ).transpose)) := by
  have htr : Matrix.trace (0 : Matrix (Fin 3) (Fin 3) ℝ) = 0 := by
    simp
  have hpos : 0 < Real.arccos ((Matrix.trace (0 : Matrix (Fin 3) (Fin 3) ℝ) - 1) / 2) := by
    rw [htr]
    exact Real.arccos_pos.mpr (by norm_num)
  have h : Real.arccos ((Matrix.trace (0 : Matrix (Fin 3) (Fin 3) ℝ) - 1) / 2) ^ 2 > (0 : ℝ) :=
    pow_pos hpos 2
  exact ⟨h, (rotationVectorFromMatrix_branches 0 0).1 h⟩

/-! ## C4: the Jacobian kernels at v = 0 -/

/-- C4 counterexample: at `v = (0,0,0)` the single-argument
`jacobianOfRotationLogMap` computes `sin θ / θ` with `θ = 0` — a division
`0/0` with no real value (NaN in the source's floating point) — so it does
not return the identity matrix. -/
theorem jacobianOfRotationLogMapV_zero_not_identity :
    jacobianOfRotationLogMapV (V3.mk 0 0 0) ≠ some 1 := by
  simp [jacobianOfRotationLogMapV, V3.squaredNorm]

/-- C4 (amended): at `v = (0,0,0)` the two-argument overload of
`jacobianOfRotationLogMap` returns the identity matrix (for every matrix
argument and nonnegative epsilon), while the single-argument overload
divides by zero and yields no real-valued result. -/
theorem jacobianOfRotationLogMap_zero_amended (eps : ℝ)
    (C : Matrix (Fin 3) (Fin 3) ℝ) (heps : 0 ≤ eps) :
    jacobianOfRotationLogMapCV eps C (V3.mk 0 0 0) = 1 ∧
    jacobianOfRotationLogMapV (V3.mk 0 0 0) = none := by
  constructor
  · have h : V3.squaredNorm (V3.mk 0 0 0) = 0 := by
      unfold V3.squaredNorm
      norm_num
    have hng : ¬ V3.squaredNorm (V3.mk 0 0 0) > eps := by
      rw [h]
      exact not_lt.mpr heps
    have hcm : crossMatrix (V3.mk 0 0 0) = 0 := crossMatrix_zero
    unfold jacobianOfRotationLogMapCV
    rw [if_neg hng, hcm, smul_zero, add_zero]
  · simp [jacobianOfRotationLogMapV, V3.squaredNorm]

/-- Witness for the amended C4 at `eps = 0`, `C = I`. -/
theorem jacobianOfRotationLogMap_zero_amended_witness :
    (0 : ℝ) ≤ 0 ∧
    jacobianOfRotationLogMapCV 0 1 (V3.mk 0 0 0) = 1 ∧
    jacobianOfRotationLogMapV (V3.mk 0 0 0) = none := by
  have h := jacobianOfRotationLogMap_zero_amended 0 1 le_rfl
  exact ⟨le_rfl, h.1, h.2⟩

/-! ## C6: double cover and the shorter-angle representative -/

theorem V3.smul_div_neg (a b : ℝ) (v : V3) :
    V3.smul (a / (-b)) v = V3.smul (a / b) v.neg := by
  unfold V3.smul V3.neg
  ext <;> dsimp only <;> rw [div_neg] <;> ring

theorem V3.smul_div_neg_cancel (a b : ℝ) (v : V3) :
    V3.smul (a / (-b)) v.neg = V3.smul (a / b) v := by
  unfold V3.smul V3.neg
  ext <;> dsimp only <;> rw [div_neg] <;> ring

/-- C6: in the generic branch (`‖q.vec‖ > eps ≥ 0`) and for `q.w ≠ 0`,
`rotationVectorFromQuaternion` returns the same 3-vector for `q` and `−q`,
and that vector's norm is at most `π`.  (At `q.w = 0` the source obtains
the same agreement through the IEEE signed zero `−0.0` in `copysign`, a
floating-point artefact with no counterpart in real arithmetic.) -/
theorem rotationVectorFromQuaternion_double_cover (eps : ℝ) (q : Quat)
    (heps : 0 ≤ eps) (hn : q.vec.norm > eps) (hw : q.w ≠ 0) :
    rotationVectorFromQuaternion eps q = rotationVectorFromQuaternion eps q.neg ∧
    (rotationVectorFromQuaternion eps q).norm ≤ Real.pi := by
  have hnpos : 0 < q.vec.norm := lt_of_le_of_lt heps hn
  have hnne : q.vec.norm ≠ 0 := ne_of_gt hnpos
  have habs : 0 < |q.w| := abs_pos.mpr hw
  have hvneg : q.neg.vec.norm = q.vec.norm := by
    unfold Quat.neg Quat.vec V3.norm V3.squaredNorm
    dsimp only
    congr 1
    ring
  have hnneg : q.neg.vec.norm > eps := by
    rw [hvneg]
    exact hn
  have habsneg : |q.neg.w| = |q.w| := by
    unfold Quat.neg
    dsimp only
    exact abs_neg _
  have hatan : atan2 q.vec.norm |q.w| = Real.arctan (q.vec.norm / |q.w|) := by
    unfold atan2
    rw [if_pos habs]
  have hapos : 0 < Real.arctan (q.vec.norm / |q.w|) := by
    have h := Real.arctan_strictMono (show (0 : ℝ) < q.vec.norm / |q.w| from
      div_pos hnpos habs)
    rwa [Real.arctan_zero] at h
  have halt : Real.arctan (q.vec.norm / |q.w|) < Real.pi / 2 :=
    Real.arctan_lt_pi_div_two _
  have hq : rotationVectorFromQuaternion eps q =
      V3.smul (2 * Real.arctan (q.vec.norm / |q.w|) / copysign q.vec.norm q.w)
        q.vec := by
    unfold rotationVectorFromQuaternion
    rw [if_pos hn, hatan]
  have hqneg : rotationVectorFromQuaternion eps q.neg =
      V3.smul (2 * Real.arctan (q.vec.norm / |q.w|) / copysign q.vec.norm q.neg.w)
        q.neg.vec := by
    unfold rotationVectorFromQuaternion
    rw [if_pos hnneg, hvneg, habsneg, hatan]
  have hvv : q.neg.vec = q.vec.neg := rfl
  constructor
  · rcases hw.lt_or_lt with hlt | hgt
    · have hc1 : copysign q.vec.norm q.w = -q.vec.norm := by
        unfold copysign
        rw [if_pos hlt, abs_of_nonneg (V3.norm_nonneg _)]
      have hwneg : ¬ q.neg.w < 0 := by
        have hrw : q.neg.w = -q.w := rfl
        rw [hrw]
        exact not_lt.mpr (neg_nonneg.mpr hlt.le)
      have hc2 : copysign q.vec.norm q.neg.w = q.vec.norm := by
        unfold copysign
        rw [if_neg hwneg, abs_of_nonneg (V3.norm_nonneg _)]
      rw [hq, hqneg, hc1, hc2, hvv]
      exact V3.smul_div_neg _ _ _
    · have hc1 : copysign q.vec.norm q.w = q.vec.norm := by
        unfold copysign
        rw [if_neg (not_lt.mpr hgt.le), abs_of_nonneg (V3.norm_nonneg _)]
      have hwneg : q.neg.w < 0 := by
        have hrw : q.neg.w = -q.w := rfl
        rw [hrw]
        exact neg_lt_zero.mpr hgt
      have hc2 : copysign q.vec.norm q.neg.w = -q.vec.norm := by
        unfold copysign
        rw [if_pos hwneg, abs_of_nonneg (V3.norm_nonneg _)]
      rw [hq, hqneg, hc1, hc2, hvv]
      exact (V3.smul_div_neg_cancel _ _ _).symm
  · have hcs_abs : |copysign q.vec.norm q.w| = q.vec.norm := by
      unfold copysign
      by_cases h : q.w < 0
      · rw [if_pos h, abs_neg, abs_abs, abs_of_nonneg (V3.norm_nonneg _)]
      · rw [if_neg h, abs_abs, abs_of_nonneg (V3.norm_nonneg _)]
    rw [hq, V3.norm_smul]
    have h2a : 0 < 2 * Real.arctan (q.vec.norm / |q.w|) := by linarith
    have hdiv : |2 * Real.arctan (q.vec.norm / |q.w|) / copysign q.vec.norm q.w| =
        2 * Real.arctan (q.vec.norm / |q.w|) / q.vec.norm := by
      rw [abs_div, hcs_abs, abs_of_pos h2a]
    rw [hdiv]
    have hmul : 2 * Real.arctan (q.vec.norm / |q.w|) / q.vec.norm * q.vec.norm =
        2 * Real.arctan (q.vec.norm / |q.w|) := by
      field_simp
    rw [hmul]
    linarith

/-- Witness for C6 at `eps = 0`, `q = (1, 0, 0, 1)` (components `x,y,z,w`). -/
theorem rotationVectorFromQuaternion_double_cover_witness :
    (0 : ℝ) ≤ 0 ∧ (Quat.mk 1 0 0 1).vec.norm > (0 : ℝ) ∧
    (Quat.mk 1 0 0 1).w ≠ 0 ∧
    rotationVectorFromQuaternion 0 (Quat.mk 1 0 0 1) =
      rotationVectorFromQuaternion 0 (Quat.mk 1 0 0 1).neg ∧
    (rotationVectorFromQuaternion 0 (Quat.mk 1 0 0 1)).norm ≤ Real.pi := by
  have hn : (Quat.mk 1 0 0 1).vec.norm > (0 : ℝ) := by
    unfold Quat.vec V3.norm V3.squaredNorm
    dsimp only
    rw [show (1 : ℝ) * 1 + 0 * 0 + 0 * 0 = 1 by norm_num, Real.sqrt_one]
    norm_num
  have hw : (Quat.mk 1 0 0 1).w ≠ 0 := one_ne_zero
  have h := rotationVectorFromQuaternion_double_cover 0 (Quat.mk 1 0 0 1) le_rfl hn hw
  exact ⟨le_rfl, hn, hw, h.1, h.2⟩

/-! ## C1: the log map inverts the exp map -/

/-- C1: for `‖v‖ < π`, when both kernels take their generic branch
(`‖v‖²·‖v‖² > eps`, the exp map's condition, and `sin(‖v‖/2) > eps`, which
is exactly the imaginary-part norm the log map tests), applying
`rotationVectorFromQuaternion` to `quaternionFromRotationVector v` returns
`v` exactly — over exact real arithmetic the claim's floating tolerance
sharpens to equality. -/
theorem roundtrip_log_exp (eps : ℝ) (v : V3) (heps : 0 ≤ eps)
    (hlt : v.norm < Real.pi)
    (hbig : v.squaredNorm * v.squaredNorm > eps)
    (hsin : Real.sin (v.norm / 2) > eps) :
    rotationVectorFromQuaternion eps (quaternionFromRotationVector eps v) = v := by
  have hsq0 : 0 ≤ v.squaredNorm := V3.squaredNorm_nonneg v
  have hsqpos : 0 < v.squaredNorm := by nlinarith
  have hθpos : 0 < v.norm := Real.sqrt_pos.mpr hsqpos
  have hθne : v.norm ≠ 0 := ne_of_gt hθpos
  have hhalf : v.norm / 2 < Real.pi / 2 := by linarith
  have hsinpos : 0 < Real.sin (v.norm / 2) :=
    Real.sin_pos_of_pos_of_lt_pi (by linarith) (by linarith [Real.pi_pos])
  have hsinne : Real.sin (v.norm / 2) ≠ 0 := ne_of_gt hsinpos
  have hcpos : 0 < Real.cos (v.norm / 2) :=
    Real.cos_pos_of_mem_Ioo ⟨by linarith [Real.pi_pos], hhalf⟩
  have hspos : 0 < Real.sin (v.norm / 2) / v.norm := div_pos hsinpos hθpos
  have hqvec : (quaternionFromRotationVector eps v).vec =
      V3.smul (Real.sin (v.norm / 2) / v.norm) v := by
    unfold quaternionFromRotationVector
    rw [if_pos hbig]
    rfl
  have hqw : (quaternionFromRotationVector eps v).w = Real.cos (v.norm / 2) := by
    unfold quaternionFromRotationVector
    rw [if_pos hbig]
    rfl
  have hvecnorm : (quaternionFromRotationVector eps v).vec.norm =
      Real.sin (v.norm / 2) := by
    rw [hqvec, V3.norm_smul, abs_of_pos hspos]
    field_simp
  unfold rotationVectorFromQuaternion
  rw [hvecnorm, hqw, hqvec, if_pos hsin]
  have hatan : atan2 (Real.sin (v.norm / 2)) |Real.cos (v.norm / 2)| =
      v.norm / 2 := by
    unfold atan2
    rw [if_pos (abs_pos.mpr (ne_of_gt hcpos)), abs_of_pos hcpos, ←
      Real.tan_eq_sin_div_cos]
    exact Real.arctan_tan (by linarith [Real.pi_pos]) hhalf
  have hcs : copysign (Real.sin (v.norm / 2)) (Real.cos (v.norm / 2)) =
      Real.sin (v.norm / 2) := by
    unfold copysign
    rw [if_neg (not_lt.mpr hcpos.le), abs_of_pos hsinpos]
  rw [hatan, hcs, V3.smul_smul]
  have hcoef : 2 * (v.norm / 2) / Real.sin (v.norm / 2) *
      (Real.sin (v.norm / 2) / v.norm) = 1 := by
    field_simp
  rw [hcoef, V3.smul_one]

/-- Witness for C1 at `eps = 0`, `v = (1, 0, 0)`. -/
theorem roundtrip_log_exp_witness :
    (0 : ℝ) ≤ 0 ∧ (V3.mk 1 0 0).norm < Real.pi ∧
    V3.squaredNorm (V3.mk 1 0 0) * V3.squaredNorm (V3.mk 1 0 0) > (0 : ℝ) ∧
    Real.sin ((V3.mk 1 0 0).norm / 2) > (0 : ℝ) ∧
    rotationVectorFromQuaternion 0 (quaternionFromRotationVector 0 (V3.mk 1 0 0)) =
      V3.mk 1 0 0 := by
  have hn : (V3.mk 1 0 0).norm = 1 := by
    simp [V3.norm, V3.squaredNorm]
  have hsq : V3.squaredNorm (V3.mk 1 0 0) = 1 := by
    simp [V3.squaredNorm]
  have h1 : (V3.mk 1 0 0).norm < Real.pi := by
    rw [hn]
    linarith [Real.pi_gt_three]
  have h2 : V3.squaredNorm (V3.mk 1 0 0) * V3.squaredNorm (V3.mk 1 0 0) > (0 : ℝ) := by
    rw [hsq]
    norm_num
  have h3 : Real.sin ((V3.mk 1 0 0).norm / 2) > (0 : ℝ) := by
    rw [hn]
    exact Real.sin_pos_of_pos_of_lt_pi (by norm_num) (by linarith [Real.pi_gt_three])
  exact ⟨le_rfl, h1, h2, h3, roundtrip_log_exp 0 (V3.mk 1 0 0) le_rfl h1 h2 h3⟩

/-! ## C10: random quaternions are unit quaternions -/

/-- C10: for any underlying uniform samples `s ∈ [0, 1]` and `u1, u2`
(encoding the angles `t1 = 2π·u1`, `t2 = 2π·u2`), the quaternion built by
`randomQuaternion` has exact unit norm over the reals. -/
theorem randomQuaternion_unit_norm (s u1 u2 : ℝ) (h0 : 0 ≤ s) (h1 : s ≤ 1) :
    (randomQuaternionSample s u1 u2).norm = 1 := by
  have hs : Real.sqrt s * Real.sqrt s = s := Real.mul_self_sqrt h0
  have hs1 : Real.sqrt (1 - s) * Real.sqrt (1 - s) = 1 - s :=
    Real.mul_self_sqrt (by linarith)
  have ht1 := Real.sin_sq_add_cos_sq (2 * Real.pi * u1)
  have ht2 := Real.sin_sq_add_cos_sq (2 * Real.pi * u2)
  have key : ∀ a b c d e f : ℝ,
      a * e * (a * e) + b * e * (b * e) + c * f * (c * f) + d * f * (d * f) =
        (a ^ 2 + b ^ 2) * (e * e) + (c ^ 2 + d ^ 2) * (f * f) := by
    intro a b c d e f
    ring
  have hnormSq : (randomQuaternionSample s u1 u2).normSq = 1 := by
    unfold randomQuaternionSample Quat.normSq
    dsimp only
    rw [key, ht1, ht2, hs, hs1]
    ring
  unfold Quat.norm
  rw [hnormSq, Real.sqrt_one]

/-- Witness for C10 at `s = 1/2`, `u1 = 0`, `u2 = 0`. -/
theorem randomQuaternion_unit_norm_witness :
    (0 : ℝ) ≤ 1 / 2 ∧ (1 : ℝ) / 2 ≤ 1 ∧
    (randomQuaternionSample (1 / 2) 0 0).norm = 1 :=
  ⟨by norm_num, by norm_num,
    randomQuaternion_unit_norm (1 / 2) 0 0 (by norm_num) (by norm_num)⟩

end wave
